import Mathlib

/-
Verification of the unranked-HLO transformation patterns implemented in
tensorflow/compiler/mlir/hlo/lib/Dialect/mhlo/transforms/transform_unranked_hlo.cc.

The file shallowly embeds
  * the run-time data the emitted subgraphs manipulate (shapes and tensors with
    row-major flat storage),
  * the semantics of the subgraphs emitted by the three rewrite patterns
    (ElementwiseOpConversion, ConvertUnrankedScalarDynamicBroadcastBinaryOp,
    ConvertUnrankedDynamicBroadcastNaryOp), and
  * the structure of the operation nodes those patterns create (for the claims
    about graph shape and attribute propagation).

Concrete arithmetic operation kinds are opaque in the source (template
parameters over an op list); they are embedded as opaque element functions
`f : α → α`, `f : α → α → α` or `f : List α → α`.
-/

/-- A run-time shape value: one non-negative extent per dimension, as produced
by `shape.shape_of`. -/
abbrev Shape := List Nat

/-- Number of elements of a shape, the semantics of `shape.num_elements`:
the product of all extents. -/
def numElements (s : Shape) : Nat := s.prod

/-- A concrete tensor value: its run-time shape together with its elements in
row-major order. In the intermediate representation the element data is what a
value carries and `mhlo.dynamic_reshape` repackages it under a new shape. -/
structure Tensor (α : Type) where
  shape : Shape
  data : List α
deriving DecidableEq, Repr

/-- Well-formedness of a tensor: the data length matches the shape. -/
def Tensor.wf (t : Tensor α) : Prop := t.data.length = numElements t.shape

/-- Semantics of `mhlo.dynamic_reshape`: the same row-major element data under
a new shape (valid when the element counts agree). -/
def reshape (t : Tensor α) (s : Shape) : Tensor α := ⟨s, t.data⟩

/-- Row-major offset of a multi-index `p` in a tensor of shape `s`. -/
def rmOffset : Shape → List Nat → Nat
  | _ :: s, i :: p => i * s.prod + rmOffset s p
  | _, _ => 0

/-- Element of a tensor at a multi-index (its logical position), through the
row-major layout. -/
def tget [Inhabited α] (t : Tensor α) (p : List Nat) : α :=
  t.data.getD (rmOffset t.shape p) default

/-- Row-major enumeration of all multi-indices of a shape. -/
def indexList : Shape → List (List Nat)
  | [] => [[]]
  | d :: s => (List.range d).flatMap (fun i => (indexList s).map (fun p => i :: p))

/-- Broadcast combination of two extents: equal extents agree, an extent of 1
stretches to match the other (spec 4.1 and the broadcasting glossary entry). -/
def bcastDim (a b : Nat) : Option Nat :=
  if a = b then some a else if a = 1 then some b else if b = 1 then some a else none

/-- Broadcast combination of two reversed shapes (least-significant dimension
first, which realizes the right-aligned convention). -/
def bcastRev : List Nat → List Nat → Option (List Nat)
  | [], bs => some bs
  | as, [] => some as
  | a :: as, b :: bs => do
      let c ← bcastDim a b
      let cs ← bcastRev as bs
      pure (c :: cs)

/-- Semantics of `shape.broadcast` on two shapes: right-aligned, with extents
of size 1 stretching to match; fails when the shapes are incompatible. -/
def broadcastShape (s t : Shape) : Option Shape :=
  (bcastRev s.reverse t.reverse).map List.reverse

/-- Fold of the binary broadcast combination over a list of shapes, starting
from an accumulator shape. -/
def broadcastShapesFrom (acc : Shape) : List Shape → Option Shape
  | [] => some acc
  | s :: ss =>
      match broadcastShape acc s with
      | none => none
      | some c => broadcastShapesFrom c ss

/-- Variadic `shape.broadcast`: fold of the binary broadcast combination over
all operand shapes. -/
def broadcastShapes (ss : List Shape) : Option Shape :=
  broadcastShapesFrom [] ss

/-- Padding of a shape with leading extents of 1 up to a target rank. -/
def padTo (r : Nat) (s : Shape) : Shape := List.replicate (r - s.length) 1 ++ s

/-- Projection of a (reversed) result index onto a (reversed) operand shape:
dimensions the operand lacks are dropped, and stretched size-1 dimensions
index position 0. -/
def projRev (sRev pRev : List Nat) : List Nat :=
  List.zipWith (fun d i => if d = 1 then 0 else i) sRev pRev

/-- Projection of a broadcast-result multi-index onto an operand of shape `s`
(right-aligned). -/
def projIndex (s p : List Nat) : List Nat :=
  (projRev s.reverse p.reverse).reverse

/-- Semantics of a binary broadcasting `chlo` operation with opaque element
function `f`: the result shape is the broadcast of the operand shapes and each
result position holds `f` of the projected operand elements. -/
def bcastEval2 [Inhabited α] (f : α → α → α) (a b : Tensor α) : Option (Tensor α) := do
  let s ← broadcastShape a.shape b.shape
  pure ⟨s, (indexList s).map
    (fun p => f (tget a (projIndex a.shape p)) (tget b (projIndex b.shape p)))⟩

/-- Semantics of an n-ary broadcasting `chlo` operation with opaque element
function `f` over the list of operand elements. -/
def bcastEvalN [Inhabited α] (f : List α → α) (ts : List (Tensor α)) : Option (Tensor α) := do
  let s ← broadcastShapes (ts.map Tensor.shape)
  pure ⟨s, (indexList s).map
    (fun p => f (ts.map (fun t => tget t (projIndex t.shape p))))⟩

/-- Modelled from the spec: direct evaluation of a unary elementwise operation
at the operand's true rank — the shape is kept and `f` is applied at every
logical position. -/
def mapEval (f : α → α) (a : Tensor α) : Tensor α := ⟨a.shape, a.data.map f⟩

/-- Modelled from the spec: direct evaluation of a binary elementwise operation
at the operands' true rank (elementwise operations require equal operand
shapes; positions correspond one to one). -/
def map2Eval (f : α → α → α) (a b : Tensor α) : Tensor α :=
  ⟨a.shape, List.zipWith f a.data b.data⟩

/-- Semantics of the direct (non-broadcasting) ranked operation created by
`Adaptor::CreateOp` on operands of equal shapes: opaque `f` applied at each
flat position, keeping the common shape. The adaptor itself lives in
map_chlo_to_hlo_op.h, outside this file; the spec describes this branch as
"apply the operation directly without any reshape". -/
def directEvalN [Inhabited α] (f : List α → α) (ts : List (Tensor α)) : Tensor α :=
  ⟨(ts.headD ⟨[], []⟩).shape,
   (List.range (numElements (ts.headD ⟨[], []⟩).shape)).map
     (fun i => f (ts.map (fun t => t.data.getD i default)))⟩

/-- Semantics of `shape.any` (line 103): it returns one of its operand shapes,
which are all assumed to represent the same shape; modelled as the first. -/
def anyShape (ss : List Shape) : Shape := ss.headD []

/-- Flattening of a tensor to one dimension, as emitted by the patterns:
`shape.num_elements` followed by `tensor.from_elements` and
`mhlo.dynamic_reshape` (lines 107-121, 182-189, 277-289). -/
def flatten1D (t : Tensor α) : Tensor α := reshape t [numElements t.shape]

/-
Pattern 4.3: ElementwiseOpConversion (lines 77-137).  The emitted subgraph is
shape-query per operand, a combined shape via shape.any when there are several
operands, flattening of every operand to one dimension, the operation on the
flat operands, and a reshape of the flat result back to the combined shape.
-/

/-- Run-time semantics of the subgraph emitted by ElementwiseOpConversion for a
unary elementwise operation (lines 92-133 with one operand: the combined shape
is the single operand shape). -/
def elementwiseRewriteEvalUnary (f : α → α) (a : Tensor α) : Tensor α :=
  let shape := a.shape
  let n := numElements shape
  let flatA := reshape a [n]
  let flatResult := mapEval f flatA
  reshape flatResult shape

/-- Run-time semantics of the subgraph emitted by ElementwiseOpConversion for a
binary elementwise operation (lines 92-133): the combined shape is
`shape.any` of the operand shapes (line 103), every operand is flattened to the
combined element count, the operation is applied flat, and the result is
reshaped back. -/
def elementwiseRewriteEvalBinary (f : α → α → α) (a b : Tensor α) : Tensor α :=
  let shape := anyShape [a.shape, b.shape]
  let n := numElements shape
  let flatA := reshape a [n]
  let flatB := reshape b [n]
  let flatResult := map2Eval f flatA flatB
  reshape flatResult shape

/-
Pattern 4.4: ConvertUnrankedScalarDynamicBroadcastBinaryOp (lines 143-207).
-/

/-- A tensor type as the pattern predicates see it: ranked with a dimension
list (entries may be statically unknown) or unranked (lines 155-159). -/
inductive TType where
  | ranked (dims : List (Option Nat))
  | unranked
deriving DecidableEq, Repr

/-- Ranked tensor type of rank 0, the "scalar" side of the pattern condition
(`lhs_ranked_type && lhs_ranked_type.getShape().empty()`, lines 161-166). -/
def isRankedScalar : TType → Bool
  | .ranked [] => true
  | _ => false

/-- Unranked tensor type test (`dyn_cast<UnrankedTensorType>`). -/
def isUnranked : TType → Bool
  | .unranked => true
  | _ => false

/-- Match condition of ConvertUnrankedScalarDynamicBroadcastBinaryOp
(lines 161-172): `lhs_is_scalar ^ rhs_is_scalar`. -/
def scalarPatternMatches (lhsTy rhsTy : TType) : Bool :=
  let lhs_is_scalar := isRankedScalar lhsTy && isUnranked rhsTy
  let rhs_is_scalar := isRankedScalar rhsTy && isUnranked lhsTy
  xor lhs_is_scalar rhs_is_scalar

/-- Run-time semantics of the subgraph emitted by
ConvertUnrankedScalarDynamicBroadcastBinaryOp (lines 179-203): the non-scalar
operand is flattened to one dimension, the binary broadcasting operation is
applied between the scalar and the flat operand in the original left/right
order, and the result is reshaped to the non-scalar operand's shape.
`lhs_is_scalar` records which side the rank-0 operand is on. -/
def scalarBroadcastRewriteEval [Inhabited α] (f : α → α → α) (lhs rhs : Tensor α)
    (lhs_is_scalar : Bool) : Option (Tensor α) :=
  let nonScalar := if lhs_is_scalar then rhs else lhs
  let shape := nonScalar.shape
  let n := numElements shape
  let reshaped := reshape nonScalar [n]
  let newLhs := if lhs_is_scalar then lhs else reshaped
  let newRhs := if lhs_is_scalar then reshaped else rhs
  (bcastEval2 f newLhs newRhs).map (fun computed => reshape computed shape)

/-
Pattern 4.5: ConvertUnrankedDynamicBroadcastNaryOp (lines 218-538).
-/

/-- Dynamic scalar-likeness test `IsSingleElementShape` (lines 342-351): the
number of elements of the shape equals 1. -/
def IsSingleElementShape (s : Shape) : Bool := numElements s == 1

/-- Run-time value of the scalar-like counter built in lines 255-262: for each
operand shape the counter is incremented when the shape has exactly one
element. -/
def countScalarLike (shapes : List Shape) : Nat :=
  shapes.foldl (fun c s => if IsSingleElementShape s then c + 1 else c) 0

/-- Run-time value of the `equal_shapes` chain of `shape.shape_eq` and `and`
operations (lines 308-314).  The pattern is only instantiated for operations
with at least two operands, so lists shorter than two are irrelevant. -/
def allShapesEqual : List Shape → Bool
  | s0 :: s1 :: rest => rest.foldl (fun acc s => acc && decide (s0 = s)) (decide (s0 = s1))
  | _ => true

/-- Maximum number of rank specializations (line 510): 8 for operations with
more than two operands (select), 5 for binary operations. -/
def kMaxRankSpecialization (numOperands : Nat) : Nat :=
  if numOperands > 2 then 8 else 5

/-- Message of the assertion fired when no rank specialization applies
(lines 522-527). -/
def assertMessage (m : Nat) : String :=
  "Input for dynamic binary op lowering was of a rank greater than " ++ toString m

/-- Semantics of `createBroadcastToKnownRank` (lines 383-399): broadcast of a
shape with the all-ones shape of the targeted rank, which pads the shape with
leading 1 extents up to that rank. -/
def broadcastToKnownRank (s : Shape) (targetedRank : Nat) : Option Shape :=
  broadcastShape s (List.replicate targetedRank 1)

/-- Per-operand work of `createRankSpecializedBroadcastAndOp` (lines 413-432):
each operand shape is broadcast to the targeted rank and the operand is
reshaped to that padded shape. -/
def padOperands (r : Nat) : List (Tensor α) → List Shape → Option (List (Tensor α))
  | t :: ts, s :: ss => do
      let es ← broadcastToKnownRank s r
      let rest ← padOperands r ts ss
      pure (reshape t es :: rest)
  | _, _ => some []

/-- Run-time semantics of one rank-specialized branch body
(`createRankSpecializedBroadcastAndOp`, lines 403-444): the operands are
reshaped to their shapes padded to the targeted rank, the broadcasting
operation is applied at that fixed rank, and the result is type-erased back to
unranked (a no-op on the value). -/
def rankSpecBody [Inhabited α] (f : List α → α) (ops : List (Tensor α))
    (opShapes : List Shape) (targetedRank : Nat) : Option (Tensor α) := do
  let padded ← padOperands targetedRank ops opShapes
  bcastEvalN f padded

/-- Run-time value of `greater_rank` (lines 480-493): the largest rank among
the reduced operand shapes, computed by a chain of compare-and-select. -/
def maxRank : List Shape → Nat
  | [] => 0
  | s :: rest => rest.foldl (fun m t => if m > t.length then m else t.length) s.length

/-- Evaluation of the emitted rank-specialization ladder (lines 497-530),
structured by remaining guarded branches: fuel `k` stands for the chain that
still tests candidate ranks `m - k`, ..., `m - 1` before reaching the final
else block, which asserts `rank = m` and otherwise aborts with the message
naming the bound.  The branch bodies are only entered on the branch taken. -/
def ladderFromAux (m rank : Nat) (body : Nat → β) : Nat → Except String β
  | 0 => if rank = m then .ok (body m) else .error (assertMessage m)
  | k + 1 =>
      let i := m - (k + 1)
      if rank = i then .ok (body i) else ladderFromAux m rank body k

/-- Run-time semantics of the whole rank ladder: candidate ranks 1 up to `m`
are tested in ascending order (outer `if` for rank 1, lines 497-501, then one
nested `if` per rank up to `m - 1`, lines 511-519, and the assertion-guarded
rank-`m` block, lines 520-530). -/
def ladderEval (m rank : Nat) (body : Nat → β) : Except String β :=
  ladderFromAux m rank body (m - 1)

/-- Branch of the ladder that executes for a given run-time rank, mirroring
the control structure of `ladderEval`. -/
def ladderTakenAux (m rank : Nat) : Nat → Option Nat
  | 0 => if rank = m then some m else none
  | k + 1 =>
      let i := m - (k + 1)
      if rank = i then some i else ladderTakenAux m rank k

/-- Branch of the whole ladder taken for a given run-time rank; `none` means
the assertion fires and no branch produces a value. -/
def ladderTaken (m rank : Nat) : Option Nat :=
  ladderTakenAux m rank (m - 1)

/-- Run-time semantics of `HandleBroadcastAndOp` (lines 448-537): shapes are
queried, their broadcast is computed, the shapes are reduced by the external
`chlo.minimum_broadcast_shapes` operation (defined outside this file; its
semantics is the `minShapes` parameter), the operands are reshaped to the
reduced shapes, the largest reduced rank selects a branch of the rank ladder,
and the branch result is reshaped to the full broadcast shape. -/
def handleBroadcastAndOp [Inhabited α] (f : List α → α)
    (minShapes : List Shape → List Shape) (ops : List (Tensor α)) :
    Except String (Tensor α) :=
  let shapes := ops.map Tensor.shape
  match broadcastShapes shapes with
  | none => .error "incompatible shapes in shape.broadcast"
  | some bs =>
      let reduced := minShapes shapes
      let reshapedOps := List.zipWith reshape ops reduced
      let greaterRank := maxRank reduced
      let m := kMaxRankSpecialization ops.length
      match ladderEval m greaterRank (fun r => rankSpecBody f reshapedOps reduced r) with
      | .error e => .error e
      | .ok none => .error "incompatible shapes in broadcasting op"
      | .ok (some t) => .ok (reshape t bs)

/-- Run-time semantics of the subgraph emitted by
ConvertUnrankedDynamicBroadcastNaryOp::matchAndRewrite (lines 223-337): the
scalar-like counter selects fast path A (flatten everything to one dimension,
apply the broadcasting operation at rank 1 and reshape to the broadcast of all
operand shapes, lines 269-302); otherwise equal shapes select the direct
non-broadcast application (lines 307-324); otherwise the rank-specialization
ladder runs (lines 326-333). -/
def naryDispatchEval [Inhabited α] (f : List α → α)
    (minShapes : List Shape → List Shape) (ops : List (Tensor α)) :
    Except String (Tensor α) :=
  let shapes := ops.map Tensor.shape
  let counter := countScalarLike shapes
  if counter ≥ ops.length - 1 then
    let flatOps := ops.map flatten1D
    match bcastEvalN f flatOps with
    | none => .error "incompatible shapes in broadcasting op"
    | some res =>
        match broadcastShapes shapes with
        | none => .error "incompatible shapes in shape.broadcast"
        | some bs => .ok (reshape res bs)
  else if allShapesEqual shapes then
    .ok (directEvalN f ops)
  else
    handleBroadcastAndOp f minShapes ops

/-
Structural embedding of the operation nodes the patterns create.  Each
`rewriter.create` / `builder.create` call in the source becomes one node;
regions of `scf.if` operations hold the nodes created through their body
builders.  The attribute dictionary passed to a created core operation is kept
abstract (type parameter `A`); `op->getAttrs()` of the replaced operation is
the `attrs` argument of the builders below.
-/

/-- One created operation node.  `coreOp` is a creation of the pattern's own
operation kind (`rewriter.create<OpTy>` / `create<ChloOpTy>`) carrying an
attribute dictionary; `directOp` is the operation created through the external
`Adaptor::CreateOp`; the remaining constructors are the auxiliary shape, SCF,
standard and tensor dialect operations the patterns emit. -/
inductive ENode (A : Type) where
  | shapeOfNode
  | anyShapeNode
  | numElementsNode
  | fromElementsNode
  | dynReshape
  | constShape (dims : List Nat)
  | bcastNode
  | minBcastShapes
  | rankNode
  | constIndex (n : Nat)
  | cmpi
  | addi
  | selecti
  | andi
  | shapeEqNode
  | tensorCast
  | coreOp (attrs : A)
  | directOp
  | assertNode (msg : String)
  | yieldNode
  | scfIf (thenBranch elseBranch : ENode A)
  | seq (a b : ENode A)
  | skip
deriving DecidableEq, Repr

/-- Sequencing of a list of nodes created one after another in one region. -/
def seqAll (l : List (ENode A)) : ENode A := l.foldr ENode.seq ENode.skip

/-- Attribute dictionaries of all `coreOp` nodes in a subgraph, in creation
order. -/
def coreOpAttrs : ENode A → List A
  | .coreOp a => [a]
  | .scfIf t e => coreOpAttrs t ++ coreOpAttrs e
  | .seq a b => coreOpAttrs a ++ coreOpAttrs b
  | _ => []

/-- Presence of a reshape node anywhere in a subgraph. -/
def hasReshape : ENode A → Bool
  | .dynReshape => true
  | .scfIf t e => hasReshape t || hasReshape e
  | .seq a b => hasReshape a || hasReshape b
  | _ => false

/-- Candidate ranks guarding the branches of an emitted ladder: the constant
index operands of the rank-equality compares. -/
def ladderGuardIndices : ENode A → List Nat
  | .constIndex n => [n]
  | .scfIf t e => ladderGuardIndices t ++ ladderGuardIndices e
  | .seq a b => ladderGuardIndices a ++ ladderGuardIndices b
  | _ => []

/-- Nodes created by ElementwiseOpConversion::matchAndRewrite (lines 92-133):
a shape query per operand, `shape.any` when there are several operands, the
flat shape computation, one reshape per operand, the core operation carrying
the original attributes (line 129), and the restoring reshape. -/
def emittedElementwise (numOperands : Nat) (attrs : A) : ENode A :=
  seqAll (List.replicate numOperands ENode.shapeOfNode
    ++ (if numOperands = 1 then [] else [ENode.anyShapeNode])
    ++ [ENode.numElementsNode, ENode.fromElementsNode]
    ++ List.replicate numOperands ENode.dynReshape
    ++ [ENode.coreOp attrs, ENode.dynReshape])

/-- Nodes created by ConvertUnrankedScalarDynamicBroadcastBinaryOp
(lines 180-203): shape query, flat shape, reshape of the non-scalar operand,
the rank-1 core operation carrying the original attributes (line 199), and the
restoring reshape. -/
def emittedScalarBroadcast (attrs : A) : ENode A :=
  seqAll [ENode.shapeOfNode, ENode.numElementsNode, ENode.fromElementsNode,
    ENode.dynReshape, ENode.coreOp attrs, ENode.dynReshape]

/-- Nodes of one rank-specialized branch body
(`createRankSpecializedBroadcastAndOp`, lines 403-444): per operand the
constant all-ones shape, its broadcast with the operand shape, the cast to the
known-rank extent tensor and the reshape; then the core operation at the fixed
rank carrying the original attributes (line 440), the cast erasing the rank,
and the yield. -/
def rankSpecNodes (numOperands : Nat) (attrs : A) (targetedRank : Nat) : ENode A :=
  seqAll ((List.replicate numOperands
      [ENode.constShape (List.replicate targetedRank 1), ENode.bcastNode,
       ENode.tensorCast, ENode.dynReshape]).flatten
    ++ [ENode.coreOp attrs, ENode.tensorCast, ENode.yieldNode])

/-- Else chain of the emitted ladder with `k` guarded branches remaining
before the final else block: fuel `k + 1` emits the guarded branch for
candidate rank `m - (k + 1)` (lines 511-519), fuel 0 emits the final block
with the assertion for rank `m` and the rank-`m` body (lines 520-530). -/
def ladderChainAux (numOperands : Nat) (attrs : A) (m : Nat) : Nat → ENode A
  | 0 => seqAll [ENode.constIndex m, ENode.cmpi, ENode.assertNode (assertMessage m),
      rankSpecNodes numOperands attrs m]
  | k + 1 =>
      let i := m - (k + 1)
      seqAll [ENode.constIndex i, ENode.cmpi,
        ENode.scfIf (rankSpecNodes numOperands attrs i)
          (ladderChainAux numOperands attrs m k),
        ENode.yieldNode]

/-- The whole emitted rank ladder (lines 497-530): the outer `if` for
candidate rank 1 whose else region carries the chain for ranks 2 up to `m`. -/
def emittedLadderChain (numOperands : Nat) (attrs : A) (m : Nat) : ENode A :=
  seqAll [ENode.constIndex 1, ENode.cmpi,
    ENode.scfIf (rankSpecNodes numOperands attrs 1)
      (ladderChainAux numOperands attrs m (m - 2))]

/-- Nodes created by `HandleBroadcastAndOp` (lines 448-537): shape queries,
the full broadcast shape, the external shape minimization, the reshapes to the
reduced shapes, the rank maximum chain, the ladder, and the final reshape of
the ladder result to the broadcast shape. -/
def emittedHandleBroadcast (numOperands : Nat) (attrs : A) : ENode A :=
  seqAll (List.replicate numOperands ENode.shapeOfNode
    ++ [ENode.bcastNode, ENode.minBcastShapes]
    ++ List.replicate numOperands ENode.dynReshape
    ++ [ENode.rankNode]
    ++ (List.replicate (numOperands - 1) [ENode.rankNode, ENode.cmpi, ENode.selecti]).flatten
    ++ [emittedLadderChain numOperands attrs (kMaxRankSpecialization numOperands),
        ENode.dynReshape, ENode.yieldNode])

/-- Then region of the fast-path-A `scf.if` (lines 274-302): per operand the
flat shape computation and reshape, the rank-1 core operation carrying the
original attributes (line 297), the broadcast of all operand shapes with the
reshape to it (`extendToBroadcastShape`, lines 353-362), and the yield. -/
def fastPathANodes (numOperands : Nat) (attrs : A) : ENode A :=
  seqAll ((List.replicate numOperands
      [ENode.numElementsNode, ENode.fromElementsNode, ENode.dynReshape]).flatten
    ++ [ENode.coreOp attrs, ENode.bcastNode, ENode.dynReshape, ENode.yieldNode])

/-- Then region of the equal-shapes `scf.if` (lines 320-324): only the direct
operation created through `Adaptor::CreateOp` on the original operands, and
the yield.  No reshape is created in this region. -/
def naryEqShapesBranch : ENode A :=
  seqAll [ENode.directOp, ENode.yieldNode]

/-- Else region of the fast-path-A `scf.if` (lines 304-333): the equal-shapes
chain, the inner `scf.if` choosing between the direct application and the
rank ladder, and the yield of its result. -/
def narySecondElseNodes (numOperands : Nat) (attrs : A) : ENode A :=
  seqAll ([ENode.shapeEqNode]
    ++ (List.replicate (numOperands - 2) [ENode.shapeEqNode, ENode.andi]).flatten
    ++ [ENode.scfIf naryEqShapesBranch (emittedHandleBroadcast numOperands attrs),
        ENode.yieldNode])

/-- Nodes created by ConvertUnrankedDynamicBroadcastNaryOp::matchAndRewrite
(lines 247-336): shape queries, the scalar-like counter chain, the counter
threshold compare, and the outer `scf.if` with the fast path A in its then
region and the equal-shapes dispatch in its else region. -/
def emittedNaryDispatch (numOperands : Nat) (attrs : A) : ENode A :=
  seqAll (List.replicate numOperands ENode.shapeOfNode
    ++ [ENode.constIndex 0, ENode.constIndex 1]
    ++ (List.replicate numOperands
        [ENode.numElementsNode, ENode.constIndex 1, ENode.cmpi, ENode.addi,
         ENode.selecti]).flatten
    ++ [ENode.constIndex (numOperands - 1), ENode.cmpi,
        ENode.scfIf (fastPathANodes numOperands attrs)
          (narySecondElseNodes numOperands attrs)])

/-
Helper lemmas about row-major indexing.
-/

theorem length_flatMap_const {β : Type} (l : List Nat) (B : Nat → List β) (P : Nat)
    (hB : ∀ j ∈ l, (B j).length = P) : (l.flatMap B).length = l.length * P := by
  induction l with
  | nil => simp
  | cons x xs ih =>
      simp only [List.flatMap_cons, List.length_append, List.length_cons]
      rw [hB x (by simp), ih (fun j hj => hB j (by simp [hj]))]
      ring

theorem length_indexList (s : Shape) : (indexList s).length = s.prod := by
  induction s with
  | nil => simp [indexList]
  | cons d s ih =>
      simp only [indexList, List.prod_cons]
      rw [length_flatMap_const _ _ s.prod (by intro j _; simp [ih])]
      simp [Nat.mul_comm]

theorem mem_indexList_length {s : Shape} {p : List Nat} (h : p ∈ indexList s) :
    p.length = s.length := by
  induction s generalizing p with
  | nil => simp [indexList] at h; simp [h]
  | cons d s ih =>
      simp only [indexList, List.mem_flatMap, List.mem_map] at h
      obtain ⟨i, _, q, hq, rfl⟩ := h
      simp [ih hq]

theorem mem_indexList_head {s : Shape} {d : Nat} {p : List Nat}
    (h : p ∈ indexList (d :: s)) : ∃ i q, i < d ∧ q ∈ indexList s ∧ p = i :: q := by
  simp only [indexList, List.mem_flatMap, List.mem_map, List.mem_range] at h
  obtain ⟨i, hi, q, hq, rfl⟩ := h
  exact ⟨i, q, hi, hq, rfl⟩

theorem rmOffset_lt {s : Shape} {p : List Nat} (h : p ∈ indexList s) :
    rmOffset s p < s.prod := by
  induction s generalizing p with
  | nil => simp [indexList] at h; simp [h, rmOffset]
  | cons d s ih =>
      obtain ⟨i, q, hi, hq, rfl⟩ := mem_indexList_head h
      have hoff := ih hq
      simp only [rmOffset, List.prod_cons]
      calc i * s.prod + rmOffset s q < i * s.prod + s.prod := by omega
        _ = (i + 1) * s.prod := by ring
        _ ≤ d * s.prod := Nat.mul_le_mul_right _ (by omega)

theorem getD_flatMap_range {β : Type} (B : Nat → List β) (P d i o : Nat) (dflt : β)
    (hi : i < d) (ho : o < P) (hB : ∀ j, (B j).length = P) :
    ((List.range d).flatMap B).getD (i * P + o) dflt = (B i).getD o dflt := by
  induction d with
  | zero => omega
  | succ d ih =>
      rw [List.range_succ, List.flatMap_append]
      have hlen : ((List.range d).flatMap B).length = d * P := by
        rw [length_flatMap_const _ _ P (fun j _ => hB j), List.length_range]
      rcases Nat.lt_or_ge i d with hid | hid
      · rw [List.getD_append]
        · exact ih hid
        · rw [hlen]
          calc i * P + o < i * P + P := by omega
            _ = (i + 1) * P := by ring
            _ ≤ d * P := Nat.mul_le_mul_right _ (by omega)
      · have hieq : i = d := by omega
        subst hieq
        rw [List.getD_append_right]
        · simp [hlen]
        · omega

theorem getD_map_indexList {β : Type} {s : Shape} {p : List Nat} (g : List Nat → β)
    (dflt : β) (h : p ∈ indexList s) :
    ((indexList s).map g).getD (rmOffset s p) dflt = g p := by
  induction s generalizing p g with
  | nil =>
      simp [indexList] at h
      simp [h, indexList, rmOffset]
  | cons d s ih =>
      obtain ⟨i, q, hi, hq, rfl⟩ := mem_indexList_head h
      simp only [indexList, List.map_flatMap, List.map_map, rmOffset]
      rw [getD_flatMap_range _ s.prod d i (rmOffset s q) dflt hi (rmOffset_lt hq)
        (by intro j; simp [length_indexList])]
      exact ih _ hq

theorem getD_zipWith {β γ : Type} (f : α → β → γ) (l1 : List α) (l2 : List β)
    (k : Nat) (d1 : α) (d2 : β) (d3 : γ) (h1 : k < l1.length) (h2 : k < l2.length) :
    (List.zipWith f l1 l2).getD k d3 = f (l1.getD k d1) (l2.getD k d2) := by
  rw [List.getD_eq_getElem l1 d1 h1, List.getD_eq_getElem l2 d2 h2,
    List.getD_eq_getElem _ d3 (by simp [List.length_zipWith]; omega)]
  exact List.getElem_zipWith


/-
Helper lemmas about broadcast shape combination.
-/

theorem bcastDim_self (a : Nat) : bcastDim a a = some a := by
  simp [bcastDim]

theorem bcastDim_one_left (b : Nat) : bcastDim 1 b = some b := by
  unfold bcastDim
  rcases eq_or_ne (1 : Nat) b with h | h
  · simp [← h]
  · simp [h]

theorem bcastDim_one_right (a : Nat) : bcastDim a 1 = some a := by
  unfold bcastDim
  rcases eq_or_ne a 1 with h | h
  · simp [h]
  · simp [h]

theorem bcastRev_nil_left (bs : List Nat) : bcastRev [] bs = some bs := by
  cases bs <;> rfl

theorem bcastRev_nil_right (as : List Nat) : bcastRev as [] = some as := by
  cases as <;> rfl

theorem bcastRev_cons (a b : Nat) (as bs : List Nat) :
    bcastRev (a :: as) (b :: bs) =
      match bcastDim a b, bcastRev as bs with
      | some c, some cs => some (c :: cs)
      | _, _ => none := by
  cases hc : bcastDim a b <;> cases hcs : bcastRev as bs <;>
    simp [bcastRev, hc, hcs]

theorem bcastRev_self (as : List Nat) : bcastRev as as = some as := by
  induction as with
  | nil => rfl
  | cons a as ih => rw [bcastRev_cons, bcastDim_self, ih]

theorem bcastRev_length {as bs cs : List Nat} (h : bcastRev as bs = some cs) :
    cs.length = max as.length bs.length := by
  induction as generalizing bs cs with
  | nil =>
      rw [bcastRev_nil_left] at h
      cases h
      simp
  | cons a as ih =>
      cases bs with
      | nil =>
          rw [bcastRev_nil_right] at h
          cases h
          simp
      | cons b bs =>
          rw [bcastRev_cons] at h
          cases hc : bcastDim a b with
          | none => rw [hc] at h; simp at h
          | some c =>
              cases hcs : bcastRev as bs with
              | none => rw [hc, hcs] at h; simp at h
              | some cs2 =>
                  rw [hc, hcs] at h
                  simp only [Option.some.injEq] at h
                  subst h
                  have := ih hcs
                  simp only [List.length_cons, this, Nat.max_def]
                  split <;> split <;> omega

theorem bcastRev_replicate_one_right (as : List Nat) (k : Nat) :
    bcastRev as (List.replicate k 1) = some (as ++ List.replicate (k - as.length) 1) := by
  induction as generalizing k with
  | nil => simp [bcastRev_nil_left]
  | cons a as ih =>
      cases k with
      | zero => simp [bcastRev_nil_right]
      | succ k =>
          rw [List.replicate_succ, bcastRev_cons, bcastDim_one_right, ih]
          simp [Nat.succ_sub_succ]

theorem bcastRev_replicate_one_left (k : Nat) (bs : List Nat) :
    bcastRev (List.replicate k 1) bs = some (bs ++ List.replicate (k - bs.length) 1) := by
  induction k generalizing bs with
  | zero => simp [bcastRev_nil_left]
  | succ k ih =>
      cases bs with
      | nil => simp [bcastRev_nil_right]
      | cons b bs =>
          rw [List.replicate_succ, bcastRev_cons, bcastDim_one_left, ih]
          simp [Nat.succ_sub_succ]

theorem bcastRev_pad {as bs cs : List Nat} (r : Nat) (h : bcastRev as bs = some cs) :
    bcastRev (as ++ List.replicate (r - as.length) 1) (bs ++ List.replicate (r - bs.length) 1)
      = some (cs ++ List.replicate (r - cs.length) 1) := by
  induction as generalizing bs cs r with
  | nil =>
      rw [bcastRev_nil_left] at h
      injection h with h2
      subst h2
      rw [List.nil_append, List.length_nil, Nat.sub_zero, bcastRev_replicate_one_left]
      have hlen : (bs ++ List.replicate (r - bs.length) 1).length = max bs.length r := by
        simp only [List.length_append, List.length_replicate, Nat.max_def]
        split <;> omega
      rw [List.append_assoc, hlen]
      have hz : r - max bs.length r = 0 := by omega
      rw [hz]
      simp
  | cons a as ih =>
      cases bs with
      | nil =>
          rw [bcastRev_nil_right] at h
          injection h with h2
          subst h2
          rw [List.nil_append, List.length_nil, Nat.sub_zero, bcastRev_replicate_one_right]
          have hlen : ((a :: as) ++ List.replicate (r - (a :: as).length) 1).length
              = max (a :: as).length r := by
            simp only [List.length_append, List.length_replicate, Nat.max_def]
            split <;> omega
          rw [List.append_assoc, hlen]
          have hz : r - max (a :: as).length r = 0 := by omega
          rw [hz]
          simp
      | cons b bs =>
          rw [bcastRev_cons] at h
          cases hc : bcastDim a b with
          | none => rw [hc] at h; simp at h
          | some c =>
              cases hcs : bcastRev as bs with
              | none => rw [hc, hcs] at h; simp at h
              | some cs2 =>
                  rw [hc, hcs] at h
                  simp only [Option.some.injEq] at h
                  subst h
                  have harith1 : r - (a :: as).length = (r - 1) - as.length := by
                    simp only [List.length_cons]; omega
                  have harith2 : r - (b :: bs).length = (r - 1) - bs.length := by
                    simp only [List.length_cons]; omega
                  have harith3 : r - (c :: cs2).length = (r - 1) - cs2.length := by
                    simp only [List.length_cons]; omega
                  rw [harith1, harith2, harith3, List.cons_append, List.cons_append,
                    List.cons_append, bcastRev_cons, hc, ih (r - 1) hcs]

theorem broadcastShape_nil_left (t : Shape) : broadcastShape [] t = some t := by
  simp [broadcastShape, bcastRev_nil_left]

theorem broadcastShape_self (s : Shape) : broadcastShape s s = some s := by
  simp [broadcastShape, bcastRev_self]

theorem broadcastShape_length {s t c : Shape} (h : broadcastShape s t = some c) :
    c.length = max s.length t.length := by
  rw [broadcastShape, Option.map_eq_some'] at h
  obtain ⟨cs, hcs, rfl⟩ := h
  have hl := bcastRev_length hcs
  simp only [List.length_reverse] at hl
  simp [hl]

theorem broadcastToKnownRank_eq (s : Shape) (r : Nat) :
    broadcastToKnownRank s r = some (padTo r s) := by
  rw [broadcastToKnownRank, broadcastShape, List.reverse_replicate,
    bcastRev_replicate_one_right, List.length_reverse]
  refine congrArg some ?_
  rw [List.reverse_append, List.reverse_reverse, List.reverse_replicate, padTo]

theorem broadcastShape_padTo {s t c : Shape} (r : Nat) (h : broadcastShape s t = some c) :
    broadcastShape (padTo r s) (padTo r t) = some (padTo r c) := by
  rw [broadcastShape, Option.map_eq_some'] at h
  obtain ⟨cs, hcs, rfl⟩ := h
  have hpad := bcastRev_pad r hcs
  rw [broadcastShape, padTo, padTo, List.reverse_append, List.reverse_append,
    List.reverse_replicate, List.reverse_replicate]
  have hlen1 : r - s.length = r - s.reverse.length := by simp
  have hlen2 : r - t.length = r - t.reverse.length := by simp
  rw [hlen1, hlen2, hpad]
  refine congrArg some ?_
  rw [List.reverse_append, List.reverse_replicate, padTo]
  congr 2
  simp

/-
Helper lemmas about the variadic broadcast fold and the rank maximum.
-/

theorem broadcastShapesFrom_length {acc c : Shape} {ss : List Shape}
    (h : broadcastShapesFrom acc ss = some c) :
    c.length = (ss.map List.length).foldl max acc.length := by
  induction ss generalizing acc with
  | nil =>
      rw [broadcastShapesFrom] at h
      injection h with h2
      subst h2
      rfl
  | cons s ss ih =>
      rw [broadcastShapesFrom] at h
      cases hb : broadcastShape acc s with
      | none => rw [hb] at h; simp at h
      | some c2 =>
          rw [hb] at h
          have := ih h
          rw [this, List.map_cons, List.foldl_cons, broadcastShape_length hb]

theorem le_foldl_max_init (l : List Nat) (m : Nat) : m ≤ l.foldl max m := by
  induction l generalizing m with
  | nil => simp
  | cons y l ih => exact le_trans (le_max_left m y) (ih (max m y))

theorem foldl_max_le {l : List Nat} {m x : Nat} (hx : x ∈ l) : x ≤ l.foldl max m := by
  induction l generalizing m with
  | nil => simp at hx
  | cons y l ih =>
      rcases List.mem_cons.mp hx with rfl | hx2
      · rw [List.foldl_cons]
        exact le_trans (le_max_right m x) (le_foldl_max_init l (max m x))
      · exact ih hx2

theorem maxRank_eq_foldl (ss : List Shape) :
    maxRank ss = (ss.map List.length).foldl max 0 := by
  cases ss with
  | nil => rfl
  | cons s rest =>
      rw [maxRank, List.map_cons, List.foldl_cons, Nat.max_comm, Nat.max_zero]
      have hgen : ∀ (l : List Shape) (m : Nat),
          l.foldl (fun m t => if m > t.length then m else t.length) m
            = (l.map List.length).foldl max m := by
        intro l
        induction l with
        | nil => intro m; rfl
        | cons t l ihl =>
            intro m
            rw [List.foldl_cons, List.map_cons, List.foldl_cons, ihl]
            congr 1
            rw [Nat.max_def]
            split <;> split <;> omega
      exact hgen rest s.length

theorem length_le_maxRank {s : Shape} {ss : List Shape} (h : s ∈ ss) :
    s.length ≤ maxRank ss := by
  rw [maxRank_eq_foldl]
  exact foldl_max_le (List.mem_map_of_mem _ h)

theorem broadcastShapes_length {ss : List Shape} {c : Shape}
    (h : broadcastShapes ss = some c) : c.length = maxRank ss := by
  rw [maxRank_eq_foldl]
  have := broadcastShapesFrom_length h
  simpa using this

theorem broadcastShapesFrom_pad {acc c : Shape} {ss : List Shape} (r : Nat)
    (h : broadcastShapesFrom acc ss = some c) :
    broadcastShapesFrom (padTo r acc) (ss.map (padTo r)) = some (padTo r c) := by
  induction ss generalizing acc with
  | nil =>
      rw [broadcastShapesFrom] at h
      injection h with h2
      subst h2
      rfl
  | cons s ss ih =>
      rw [broadcastShapesFrom] at h
      cases hb : broadcastShape acc s with
      | none => rw [hb] at h; simp at h
      | some c2 =>
          rw [hb] at h
          rw [List.map_cons, broadcastShapesFrom, broadcastShape_padTo r hb]
          exact ih h

theorem broadcastShapes_cons (s : Shape) (ss : List Shape) :
    broadcastShapes (s :: ss) = broadcastShapesFrom s ss := by
  rw [broadcastShapes, broadcastShapesFrom, broadcastShape_nil_left]

theorem broadcastShapes_pad_of_maxRank {s0 : Shape} {ss : List Shape} {c : Shape}
    (h : broadcastShapes (s0 :: ss) = some c) (hc : c.length = maxRank (s0 :: ss)) :
    broadcastShapes ((padTo (maxRank (s0 :: ss)) s0) :: ss.map (padTo (maxRank (s0 :: ss))))
      = some c := by
  rw [broadcastShapes_cons] at h
  have hpad := broadcastShapesFrom_pad (maxRank (s0 :: ss)) h
  rw [broadcastShapes_cons]
  rw [hpad]
  congr 1
  rw [padTo, hc, Nat.sub_self]
  simp

/-
Helper lemmas connecting index projection and rank padding.
-/

theorem zipWith_take_length {β γ : Type} (f : α → β → γ) (l1 : List α) (l2 : List β) :
    List.zipWith f l1 l2 = List.zipWith f l1 (l2.take l1.length) := by
  induction l1 generalizing l2 with
  | nil => rw [List.zipWith_nil_left, List.zipWith_nil_left]
  | cons x l1 ih =>
      cases l2 with
      | nil => rw [List.take_nil]
      | cons y l2 =>
          rw [List.zipWith_cons_cons, List.length_cons, List.take_succ_cons,
            List.zipWith_cons_cons, ← ih]

theorem zipWith_proj_replicate_one (m : Nat) (l : List Nat) :
    List.zipWith (fun d i => if d = 1 then 0 else i) (List.replicate m 1) l
      = List.replicate (min m l.length) 0 := by
  induction m generalizing l with
  | zero => simp
  | succ m ih =>
      cases l with
      | nil => simp
      | cons x l =>
          rw [List.replicate_succ, List.zipWith_cons_cons, ih]
          simp [Nat.succ_min_succ, List.replicate_succ]

theorem projRev_append (sRev A B : List Nat) (k : Nat) (hA : A.length = sRev.length) :
    projRev (sRev ++ List.replicate k 1) (A ++ B)
      = projRev sRev A ++ List.replicate (min k B.length) 0 := by
  rw [projRev, List.zipWith_append _ _ _ _ _ hA.symm, zipWith_proj_replicate_one]
  rfl

theorem projRev_pad (sRev pRev : List Nat) (h : sRev.length ≤ pRev.length) :
    projRev (sRev ++ List.replicate (pRev.length - sRev.length) 1) pRev
      = projRev sRev pRev ++ List.replicate (pRev.length - sRev.length) 0 := by
  have hsplit := List.take_append_drop sRev.length pRev
  calc projRev (sRev ++ List.replicate (pRev.length - sRev.length) 1) pRev
      = projRev (sRev ++ List.replicate (pRev.length - sRev.length) 1)
          (pRev.take sRev.length ++ pRev.drop sRev.length) := by rw [hsplit]
    _ = projRev sRev (pRev.take sRev.length)
          ++ List.replicate
              (min (pRev.length - sRev.length) (pRev.drop sRev.length).length) 0 := by
          rw [projRev_append _ _ _ _ (by rw [List.length_take]; omega)]
    _ = projRev sRev pRev ++ List.replicate (pRev.length - sRev.length) 0 := by
          rw [List.length_drop, Nat.min_self]
          congr 1
          rw [projRev, projRev, ← zipWith_take_length]

theorem projIndex_pad (s p : List Nat) (h : s.length ≤ p.length) :
    projIndex (padTo p.length s) p
      = List.replicate (p.length - s.length) 0 ++ projIndex s p := by
  rw [projIndex, padTo, List.reverse_append, List.reverse_replicate]
  have hlen : p.length - s.length = p.reverse.length - s.reverse.length := by
    rw [List.length_reverse, List.length_reverse]
  rw [hlen, projRev_pad s.reverse p.reverse (by
    rw [List.length_reverse, List.length_reverse]; exact h)]
  rw [List.reverse_append, List.reverse_replicate, projIndex]

theorem rmOffset_replicate_pad (k : Nat) (s q : List Nat) :
    rmOffset (List.replicate k 1 ++ s) (List.replicate k 0 ++ q) = rmOffset s q := by
  induction k with
  | zero => simp
  | succ k ih =>
      rw [List.replicate_succ, List.replicate_succ, List.cons_append, List.cons_append,
        rmOffset]
      simpa using ih

theorem tget_pad [Inhabited α] (s p : List Nat) (d : List α) (h : s.length ≤ p.length) :
    tget ⟨padTo p.length s, d⟩ (projIndex (padTo p.length s) p)
      = tget ⟨s, d⟩ (projIndex s p) := by
  rw [tget, tget, projIndex_pad s p h]
  show d.getD (rmOffset (padTo p.length s) _) default = _
  rw [padTo, rmOffset_replicate_pad (p.length - s.length) s (projIndex s p)]

/-
Helper lemmas about padded broadcast evaluation and the rank-specialized body.
-/

theorem shapes_zipWith_reshape (ops : List (Tensor α)) (ss : List Shape)
    (hlen : ops.length = ss.length) :
    (List.zipWith reshape ops ss).map Tensor.shape = ss := by
  induction ops generalizing ss with
  | nil => cases ss with
    | nil => rfl
    | cons s ss => simp at hlen
  | cons o ops ih =>
      cases ss with
      | nil => simp at hlen
      | cons s ss =>
          rw [List.zipWith_cons_cons, List.map_cons]
          rw [ih ss (by simpa using hlen)]
          rfl

theorem padOperands_eq (r : Nat) (ts : List (Tensor α)) (ss : List Shape) :
    padOperands r ts ss
      = some (List.zipWith (fun t s => reshape t (padTo r s)) ts ss) := by
  induction ts generalizing ss with
  | nil => cases ss <;> rfl
  | cons t ts ih =>
      cases ss with
      | nil => rfl
      | cons s ss =>
          rw [padOperands, broadcastToKnownRank_eq, ih]
          rfl

theorem zipWith_reshape_pad (r : Nat) (ops : List (Tensor α)) (ss : List Shape) :
    List.zipWith (fun t s => reshape t (padTo r s)) (List.zipWith reshape ops ss) ss
      = (List.zipWith reshape ops ss).map (fun t => reshape t (padTo r t.shape)) := by
  induction ops generalizing ss with
  | nil => cases ss <;> rfl
  | cons o ops ih =>
      cases ss with
      | nil => rfl
      | cons s ss =>
          rw [List.zipWith_cons_cons, List.zipWith_cons_cons, List.map_cons, ih]
          rfl

theorem bcastEvalN_padded [Inhabited α] (f : List α → α) (ts : List (Tensor α))
    (r : Nat) (c : Shape) (hbs : broadcastShapes (ts.map Tensor.shape) = some c)
    (hc : c.length = r) (hne : ts ≠ []) :
    bcastEvalN f (ts.map (fun t => reshape t (padTo r t.shape))) = bcastEvalN f ts := by
  have hr : r = maxRank (ts.map Tensor.shape) := by
    rw [← hc, broadcastShapes_length hbs]
  cases ts with
  | nil => exact absurd rfl hne
  | cons t0 rest =>
      have hshapes : ((t0 :: rest).map (fun t => reshape t (padTo r t.shape))).map Tensor.shape
          = (padTo r t0.shape) :: (rest.map Tensor.shape).map (padTo r) := by
        simp [reshape]
      have hpadbs : broadcastShapes
          (((t0 :: rest).map (fun t => reshape t (padTo r t.shape))).map Tensor.shape)
          = some c := by
        rw [hshapes]
        have hstep := @broadcastShapes_pad_of_maxRank t0.shape
          (rest.map Tensor.shape) c (by simpa using hbs)
          (by rw [broadcastShapes_length (by simpa using hbs)])
        have hr2 : maxRank (t0.shape :: List.map Tensor.shape rest) = r := by
          rw [hr, List.map_cons]
        rw [hr2] at hstep
        simpa using hstep
      rw [bcastEvalN, bcastEvalN, hpadbs]
      have hbs2 : broadcastShapes ((t0 :: rest).map Tensor.shape) = some c := hbs
      rw [hbs2]
      simp only [Option.bind_eq_bind, Option.some_bind]
      refine congrArg some ?_
      refine congrArg (Tensor.mk c) ?_
      apply List.map_congr_left
      intro p hp
      congr 1
      rw [List.map_map]
      apply List.map_congr_left
      intro t ht
      have hplen : p.length = r := by rw [mem_indexList_length hp, hc]
      have htlen : t.shape.length ≤ r := by
        rw [hr]
        exact length_le_maxRank (List.mem_map_of_mem Tensor.shape ht)
      have := tget_pad t.shape p t.data (by omega)
      simp only [Function.comp]
      show tget (reshape t (padTo r t.shape)) (projIndex (reshape t (padTo r t.shape)).shape p)
        = tget t (projIndex t.shape p)
      have hres : reshape t (padTo r t.shape) = ⟨padTo p.length t.shape, t.data⟩ := by
        rw [reshape, hplen]
      rw [hres]
      show tget ⟨padTo p.length t.shape, t.data⟩ (projIndex (padTo p.length t.shape) p)
        = tget t (projIndex t.shape p)
      rw [this]

theorem rankSpecBody_at_maxRank [Inhabited α] (f : List α → α) (ops : List (Tensor α))
    (ss : List Shape) (c : Shape) (hlen : ops.length = ss.length) (hne : ops ≠ [])
    (hbs : broadcastShapes ss = some c) :
    rankSpecBody f (List.zipWith reshape ops ss) ss (maxRank ss)
      = bcastEvalN f (List.zipWith reshape ops ss) := by
  have hshapes : (List.zipWith reshape ops ss).map Tensor.shape = ss :=
    shapes_zipWith_reshape ops ss hlen
  rw [rankSpecBody, padOperands_eq, zipWith_reshape_pad]
  simp only [Option.bind_eq_bind, Option.some_bind]
  apply bcastEvalN_padded f (List.zipWith reshape ops ss) (maxRank ss) c
  · rw [hshapes]; exact hbs
  · rw [broadcastShapes_length hbs]
  · cases ops with
    | nil => exact absurd rfl hne
    | cons o ops =>
        cases ss with
        | nil => simp at hlen
        | cons s ss => simp

/-
Helper lemmas about the rank ladder control flow.
-/

theorem ladderFromAux_gt {β : Type} (m rank : Nat) (body : Nat → β) (hgt : m < rank) :
    ∀ k, ladderFromAux m rank body k = .error (assertMessage m) := by
  intro k
  induction k with
  | zero =>
      rw [ladderFromAux, if_neg (by omega)]
  | succ k ih =>
      rw [ladderFromAux, if_neg (by omega)]
      exact ih

theorem ladderFromAux_ok {β : Type} (m rank : Nat) (body : Nat → β) :
    ∀ k, rank ≤ m → m ≤ rank + k → ladderFromAux m rank body k = .ok (body rank) := by
  intro k
  induction k with
  | zero =>
      intro h1 h2
      have : rank = m := by omega
      rw [ladderFromAux, if_pos this, this]
  | succ k ih =>
      intro h1 h2
      rcases eq_or_ne rank (m - (k + 1)) with heq | hne
      · rw [ladderFromAux, if_pos heq, ← heq]
      · rw [ladderFromAux, if_neg (fun hc => hne hc)]
        exact ih h1 (by omega)

theorem ladderEval_ok {β : Type} (m rank : Nat) (body : Nat → β) (h1 : 1 ≤ rank)
    (hm : rank ≤ m) : ladderEval m rank body = .ok (body rank) := by
  rw [ladderEval]
  exact ladderFromAux_ok m rank body (m - 1) hm (by omega)

theorem ladderEval_gt {β : Type} (m rank : Nat) (body : Nat → β) (hgt : m < rank) :
    ladderEval m rank body = .error (assertMessage m) := by
  rw [ladderEval]
  exact ladderFromAux_gt m rank body hgt (m - 1)

theorem ladderTakenAux_some (m rank : Nat) :
    ∀ k, rank ≤ m → m ≤ rank + k → ladderTakenAux m rank k = some rank := by
  intro k
  induction k with
  | zero =>
      intro h1 h2
      have : rank = m := by omega
      rw [ladderTakenAux, if_pos this, this]
  | succ k ih =>
      intro h1 h2
      rcases eq_or_ne rank (m - (k + 1)) with heq | hne
      · rw [ladderTakenAux, if_pos heq, ← heq]
      · rw [ladderTakenAux, if_neg (fun hc => hne hc)]
        exact ih h1 (by omega)

theorem ladderTakenAux_none (m rank : Nat) :
    ∀ k, rank < m - k ∨ m < rank → ladderTakenAux m rank k = none := by
  intro k
  induction k with
  | zero =>
      intro h
      rw [ladderTakenAux, if_neg (by omega)]
  | succ k ih =>
      intro h
      rw [ladderTakenAux, if_neg (by omega)]
      exact ih (by omega)

theorem ladderTaken_eq (m : Nat) (hm : 1 ≤ m) (rank : Nat) :
    ladderTaken m rank = if 1 ≤ rank ∧ rank ≤ m then some rank else none := by
  rw [ladderTaken]
  rcases Nat.lt_or_ge rank 1 with hlow | hge
  · rw [if_neg (by omega)]
    exact ladderTakenAux_none m rank (m - 1) (by omega)
  · rcases le_or_lt rank m with hle | hgt
    · rw [if_pos ⟨hge, hle⟩]
      exact ladderTakenAux_some m rank (m - 1) hle (by omega)
    · rw [if_neg (by omega)]
      exact ladderTakenAux_none m rank (m - 1) (by omega)

/-
Helper lemmas about the structural node trees.
-/

theorem coreOpAttrs_seqAll {A : Type} (l : List (ENode A)) :
    coreOpAttrs (seqAll l) = l.flatMap coreOpAttrs := by
  induction l with
  | nil => rfl
  | cons x l ih =>
      rw [seqAll, List.foldr_cons, List.flatMap_cons]
      show coreOpAttrs x ++ coreOpAttrs (seqAll l) = _
      rw [ih]

theorem ladderGuardIndices_seqAll {A : Type} (l : List (ENode A)) :
    ladderGuardIndices (seqAll l) = l.flatMap ladderGuardIndices := by
  induction l with
  | nil => rfl
  | cons x l ih =>
      rw [seqAll, List.foldr_cons, List.flatMap_cons]
      show ladderGuardIndices x ++ ladderGuardIndices (seqAll l) = _
      rw [ih]

theorem flatMap_replicate_nil {A B : Type} (n : Nat) (x : A) (g : A → List B)
    (hx : g x = []) : (List.replicate n x).flatMap g = [] := by
  induction n with
  | zero => rfl
  | succ n ih =>
      rw [List.replicate_succ, List.flatMap_cons, hx, ih]
      rfl

theorem flatMap_flatten_replicate_nil {A B : Type} (n : Nat) (blk : List A)
    (g : A → List B) (hblk : blk.flatMap g = []) :
    ((List.replicate n blk).flatten).flatMap g = [] := by
  induction n with
  | zero => rfl
  | succ n ih =>
      rw [List.replicate_succ, List.flatten_cons, List.flatMap_append, hblk, ih]
      rfl

theorem coreOpAttrs_rankSpecNodes {A : Type} (n : Nat) (attrs : A) (r : Nat) :
    coreOpAttrs (rankSpecNodes n attrs r) = [attrs] := by
  rw [rankSpecNodes, coreOpAttrs_seqAll, List.flatMap_append,
    flatMap_flatten_replicate_nil _ _ _ (by rfl)]
  rfl

theorem ladderGuardIndices_rankSpecNodes {A : Type} (n : Nat) (attrs : A) (r : Nat) :
    ladderGuardIndices (rankSpecNodes n attrs r) = [] := by
  rw [rankSpecNodes, ladderGuardIndices_seqAll, List.flatMap_append,
    flatMap_flatten_replicate_nil _ _ _ (by rfl)]
  rfl

theorem coreOpAttrs_ladderChainAux {A : Type} (n : Nat) (attrs : A) (m : Nat) :
    ∀ k, coreOpAttrs (ladderChainAux n attrs m k) = List.replicate (k + 1) attrs := by
  intro k
  induction k with
  | zero =>
      rw [ladderChainAux, coreOpAttrs_seqAll]
      simp [coreOpAttrs_rankSpecNodes, coreOpAttrs]
  | succ k ih =>
      rw [ladderChainAux, coreOpAttrs_seqAll]
      simp only [List.flatMap_cons, List.flatMap_nil, List.append_nil, coreOpAttrs,
        coreOpAttrs_rankSpecNodes, ih]
      rw [List.replicate_succ]
      rfl

theorem coreOpAttrs_emittedLadderChain {A : Type} (n : Nat) (attrs : A) (m : Nat)
    (hm : 2 ≤ m) : coreOpAttrs (emittedLadderChain n attrs m) = List.replicate m attrs := by
  rw [emittedLadderChain, coreOpAttrs_seqAll]
  simp only [List.flatMap_cons, List.flatMap_nil, List.append_nil, coreOpAttrs,
    coreOpAttrs_rankSpecNodes, coreOpAttrs_ladderChainAux]
  have : m - 2 + 1 = m - 1 := by omega
  rw [this]
  have hm2 : m = (m - 1) + 1 := by omega
  conv_rhs => rw [hm2]
  rw [List.replicate_succ]
  rfl

theorem ladderGuardIndices_ladderChainAux {A : Type} (n : Nat) (attrs : A) (m : Nat) :
    ∀ k, k + 1 ≤ m →
      ladderGuardIndices (ladderChainAux n attrs m k) = List.range' (m - k) (k + 1) := by
  intro k
  induction k with
  | zero =>
      intro hk
      rw [ladderChainAux, ladderGuardIndices_seqAll]
      simp [ladderGuardIndices, ladderGuardIndices_rankSpecNodes, List.range']
  | succ k ih =>
      intro hk
      have hih := ih (by omega)
      rw [ladderChainAux, ladderGuardIndices_seqAll]
      have hgoal : List.range' (m - (k + 1)) (k + 1 + 1)
          = (m - (k + 1)) :: List.range' (m - k) (k + 1) := by
        rw [List.range'_succ]
        congr 2
        omega
      rw [hgoal]
      simp only [List.flatMap_cons, List.flatMap_nil, List.append_nil, ladderGuardIndices,
        ladderGuardIndices_rankSpecNodes, hih, List.singleton_append, List.nil_append,
        List.cons_append, List.append_nil]

theorem ladderGuardIndices_emittedLadderChain {A : Type} (n : Nat) (attrs : A) (m : Nat)
    (hm : 2 ≤ m) :
    ladderGuardIndices (emittedLadderChain n attrs m) = List.range' 1 m := by
  rw [emittedLadderChain, ladderGuardIndices_seqAll]
  simp only [List.flatMap_cons, List.flatMap_nil, List.append_nil, ladderGuardIndices,
    ladderGuardIndices_rankSpecNodes, ladderGuardIndices_ladderChainAux n attrs m (m - 2)
      (by omega)]
  have h1 : m - (m - 2) = 2 := by omega
  have h2 : m - 2 + 1 = m - 1 := by omega
  rw [h1, h2]
  have hm2 : m = (m - 1) + 1 := by omega
  conv_rhs => rw [hm2, List.range'_succ]
  rfl

/-
Remaining small helper lemmas.
-/

theorem getD_map {β : Type} (g : α → β) (l : List α) (k : Nat) (d1 : α) (d2 : β)
    (h : k < l.length) : (l.map g).getD k d2 = g (l.getD k d1) := by
  rw [List.getD_eq_getElem _ _ (by simpa using h), List.getD_eq_getElem _ _ h,
    List.getElem_map]

theorem countScalarLike_eq_filter (shapes : List Shape) :
    countScalarLike shapes
      = (shapes.filter (fun s => IsSingleElementShape s)).length := by
  have haux : ∀ (l : List Shape) (c : Nat),
      l.foldl (fun c s => if IsSingleElementShape s then c + 1 else c) c
        = c + (l.filter (fun s => IsSingleElementShape s)).length := by
    intro l
    induction l with
    | nil => intro c; simp
    | cons s l ih =>
        intro c
        rw [List.foldl_cons, List.filter_cons]
        cases hs : IsSingleElementShape s with
        | true => simp only [hs, if_true, ih, List.length_cons]; omega
        | false => simp only [hs, Bool.false_eq_true, if_false, ih]
  rw [countScalarLike, haux]
  simp

theorem mem_indexList_singleton {n k : Nat} (h : k < n) : [k] ∈ indexList [n] := by
  rw [indexList, List.mem_flatMap]
  exact ⟨k, List.mem_range.mpr h, by simp [indexList]⟩

theorem rmOffset_singleton (n k : Nat) : rmOffset [n] [k] = k := by
  simp [rmOffset]

theorem tget_flat_proj [Inhabited α] (t : Tensor α) (n off : Nat) (h : off < n) :
    tget (reshape t [n]) (projIndex [n] [off]) = t.data.getD off default := by
  rw [projIndex]
  show tget (reshape t [n]) ((projRev [n].reverse [off].reverse).reverse) = _
  rcases eq_or_ne n 1 with h1 | h1
  · subst h1
    have hoff : off = 0 := by omega
    subst hoff
    rfl
  · rw [reshape, tget]
    show t.data.getD (rmOffset [n] ((projRev [n] [off]).reverse)) default = _
    rw [projRev, List.zipWith_cons_cons, if_neg h1]
    show t.data.getD (rmOffset [n] [off]) default = _
    rw [rmOffset_singleton]

/-
Claim theorems.
-/

/-- C1: for every elementwise operation rewritten by the flatten-apply-restore
pattern (unary and binary) and all concrete operand tensors of any rank
(including ranks 0 through 4), the rewritten subgraph (shape query, flatten to
one dimension, apply, reshape back) produces exactly the element values of
direct evaluation at the operands' true rank, at the same logical
positions. -/
theorem elementwise_flatten_apply_restore_values {α : Type} [Inhabited α]
    (g : α → α) (f : α → α → α) (a b : Tensor α) (hwa : a.wf) (hwb : b.wf)
    (hab : a.shape = b.shape) :
    elementwiseRewriteEvalUnary g a = mapEval g a
    ∧ (∀ p ∈ indexList a.shape, tget (elementwiseRewriteEvalUnary g a) p = g (tget a p))
    ∧ elementwiseRewriteEvalBinary f a b = map2Eval f a b
    ∧ (∀ p ∈ indexList a.shape,
        tget (elementwiseRewriteEvalBinary f a b) p = f (tget a p) (tget b p)) := by
  refine ⟨rfl, ?_, rfl, ?_⟩
  · intro p hp
    have hlt : rmOffset a.shape p < a.data.length := by
      rw [hwa]
      exact rmOffset_lt hp
    show (a.data.map g).getD (rmOffset a.shape p) default = _
    rw [getD_map g a.data _ default default hlt]
    rfl
  · intro p hp
    have hlt1 : rmOffset a.shape p < a.data.length := by
      rw [hwa]
      exact rmOffset_lt hp
    have hlt2 : rmOffset a.shape p < b.data.length := by
      rw [hwb]
      show rmOffset a.shape p < b.shape.prod
      rw [← hab]
      exact rmOffset_lt hp
    show (List.zipWith f a.data b.data).getD (rmOffset a.shape p) default = _
    rw [getD_zipWith f a.data b.data _ default default default hlt1 hlt2]
    show f (a.data.getD (rmOffset a.shape p) default)
        (b.data.getD (rmOffset a.shape p) default)
      = f (a.data.getD (rmOffset a.shape p) default)
        (b.data.getD (rmOffset b.shape p) default)
    rw [hab]

/-- Decidability of tensor well-formedness, for concrete witnesses. -/
instance tensorWfDecidable {α : Type} (t : Tensor α) : Decidable t.wf :=
  inferInstanceAs (Decidable (t.data.length = numElements t.shape))

/-- Witness for C1 at rank-2 operands of shape [2,3]. -/
theorem elementwise_flatten_apply_restore_values_witness :
    (⟨[2,3],[0,1,2,3,4,5]⟩ : Tensor Nat).wf
    ∧ (⟨[2,3],[5,4,3,2,1,0]⟩ : Tensor Nat).wf
    ∧ (⟨[2,3],[0,1,2,3,4,5]⟩ : Tensor Nat).shape
        = (⟨[2,3],[5,4,3,2,1,0]⟩ : Tensor Nat).shape
    ∧ elementwiseRewriteEvalBinary (fun x y => x + y)
        (⟨[2,3],[0,1,2,3,4,5]⟩ : Tensor Nat) ⟨[2,3],[5,4,3,2,1,0]⟩
      = map2Eval (fun x y => x + y) ⟨[2,3],[0,1,2,3,4,5]⟩ ⟨[2,3],[5,4,3,2,1,0]⟩ :=
  ⟨by decide, by decide, rfl,
    (elementwise_flatten_apply_restore_values Nat.succ (fun x y => x + y)
      ⟨[2,3],[0,1,2,3,4,5]⟩ ⟨[2,3],[5,4,3,2,1,0]⟩ (by decide) (by decide) rfl).2.2.1⟩

/-- C7: the scalar-broadcast pattern matches exactly when one operand is a
rank-0 ranked tensor and the other operand is unranked; if both sides satisfy
their scalar/unranked condition or neither does, the pattern declines. -/
theorem scalar_pattern_match_condition (lhsTy rhsTy : TType) :
    scalarPatternMatches lhsTy rhsTy = true
      ↔ Xor' (isRankedScalar lhsTy = true ∧ isUnranked rhsTy = true)
          (isRankedScalar rhsTy = true ∧ isUnranked lhsTy = true) := by
  rw [scalarPatternMatches]
  cases h1 : isRankedScalar lhsTy <;> cases h2 : isUnranked rhsTy <;>
    cases h3 : isRankedScalar rhsTy <;> cases h4 : isUnranked lhsTy <;>
      simp [Xor']

/-- Witness for C7 at a scalar left operand and an unranked right operand. -/
theorem scalar_pattern_match_condition_witness :
    scalarPatternMatches (TType.ranked []) TType.unranked = true
      ↔ Xor' (isRankedScalar (TType.ranked []) = true ∧ isUnranked TType.unranked = true)
          (isRankedScalar TType.unranked = true ∧ isUnranked (TType.ranked []) = true) :=
  scalar_pattern_match_condition (TType.ranked []) TType.unranked

/-- C8 counterexample: the multi-operand flatten-apply-restore pattern derives
the restore shape with shape.any (line 103), not with the broadcast
combination; at run-time operand shapes [1] and [3] the restore shape is [1]
while the broadcast combination of the operand shapes is [3]. -/
theorem elementwise_restore_shape_counterexample :
    some ((elementwiseRewriteEvalBinary (fun x y => x + y)
        (⟨[1],[10]⟩ : Tensor Nat) ⟨[3],[1,2,3]⟩).shape)
      ≠ broadcastShapes [([1] : Shape), [3]]
    ∧ broadcastShapes [([1] : Shape), [3]] = some [3]
    ∧ (elementwiseRewriteEvalBinary (fun x y => x + y)
        (⟨[1],[10]⟩ : Tensor Nat) ⟨[3],[1,2,3]⟩).shape = [1] := by
  refine ⟨by decide, by decide, rfl⟩

/-- C8 as amended: with several operands the restore shape (which also fixes
the flattened element count) is obtained with shape.any, i.e. it is one of the
operand shapes; when all operand shapes are equal — as elementwise operands
require — it coincides with the right-aligned broadcast combination of all
operand shapes. -/
theorem elementwise_restore_shape_via_any {α : Type} (f : α → α → α)
    (a b : Tensor α) (h : a.shape = b.shape) :
    (elementwiseRewriteEvalBinary f a b).shape = anyShape [a.shape, b.shape]
    ∧ broadcastShapes [a.shape, b.shape]
        = some ((elementwiseRewriteEvalBinary f a b).shape) := by
  constructor
  · rfl
  · show broadcastShapes [a.shape, b.shape] = some a.shape
    rw [broadcastShapes_cons, ← h]
    simp [broadcastShapesFrom, broadcastShape_self]

/-- Witness for the amended C8 at equal operand shapes [2,2]. -/
theorem elementwise_restore_shape_via_any_witness :
    (⟨[2,2],[0,1,2,3]⟩ : Tensor Nat).shape = (⟨[2,2],[4,5,6,7]⟩ : Tensor Nat).shape
    ∧ ((elementwiseRewriteEvalBinary (fun x y => x * y)
        (⟨[2,2],[0,1,2,3]⟩ : Tensor Nat) ⟨[2,2],[4,5,6,7]⟩).shape
          = anyShape [[2,2], [2,2]]
      ∧ broadcastShapes [[2,2], [2,2]]
          = some ((elementwiseRewriteEvalBinary (fun x y => x * y)
              (⟨[2,2],[0,1,2,3]⟩ : Tensor Nat) ⟨[2,2],[4,5,6,7]⟩).shape)) :=
  ⟨rfl, elementwise_restore_shape_via_any (fun x y => x * y)
    ⟨[2,2],[0,1,2,3]⟩ ⟨[2,2],[4,5,6,7]⟩ rfl⟩


theorem broadcastShape_nil_right (s : Shape) : broadcastShape s [] = some s := by
  show (bcastRev s.reverse [].reverse).map List.reverse = some s
  rw [List.reverse_nil, bcastRev_nil_right]
  simp

theorem bcastEval2_eq {α : Type} [Inhabited α] (f : α → α → α) (a b : Tensor α)
    (s : Shape) (h : broadcastShape a.shape b.shape = some s) :
    bcastEval2 f a b = some ⟨s, (indexList s).map
      (fun p => f (tget a (projIndex a.shape p)) (tget b (projIndex b.shape p)))⟩ := by
  unfold bcastEval2
  rw [h]
  rfl

/-- C9: for the subgraph emitted by the scalar-broadcast pattern, for every
scalar operand value and every concrete run-time shape of the unranked
operand, the result shape equals the unranked operand's shape and the value at
every logical position is the binary operation applied to the scalar and the
operand element at that position, in the operands' original left/right
order. -/
theorem scalar_broadcast_result_correct {α : Type} [Inhabited α] (f : α → α → α)
    (sc t : Tensor α) (hsc : sc.shape = []) (_hwt : t.wf) :
    (∃ res, scalarBroadcastRewriteEval f sc t true = some res ∧ res.shape = t.shape
      ∧ ∀ p ∈ indexList t.shape, tget res p = f (tget sc []) (tget t p))
    ∧ (∃ res, scalarBroadcastRewriteEval f t sc false = some res ∧ res.shape = t.shape
      ∧ ∀ p ∈ indexList t.shape, tget res p = f (tget t p) (tget sc [])) := by
  constructor
  · have hb : broadcastShape sc.shape (reshape t [numElements t.shape]).shape
        = some [numElements t.shape] := by
      rw [hsc]
      exact broadcastShape_nil_left _
    have hev := bcastEval2_eq f sc (reshape t [numElements t.shape]) _ hb
    refine ⟨reshape ⟨[numElements t.shape], (indexList [numElements t.shape]).map
      (fun q => f (tget sc (projIndex sc.shape q))
        (tget (reshape t [numElements t.shape])
          (projIndex (reshape t [numElements t.shape]).shape q)))⟩ t.shape,
      ?_, rfl, ?_⟩
    · show (bcastEval2 f sc (reshape t [numElements t.shape])).map
          (fun computed => reshape computed t.shape) = _
      rw [hev]
      rfl
    · intro p hp
      have hofflt : rmOffset t.shape p < numElements t.shape := rmOffset_lt hp
      have hgd := getD_map_indexList
        (fun q => f (tget sc (projIndex sc.shape q))
          (tget (reshape t [numElements t.shape])
            (projIndex (reshape t [numElements t.shape]).shape q)))
        default (mem_indexList_singleton hofflt)
      rw [rmOffset_singleton] at hgd
      show ((indexList [numElements t.shape]).map
        (fun q => f (tget sc (projIndex sc.shape q))
          (tget (reshape t [numElements t.shape])
            (projIndex (reshape t [numElements t.shape]).shape q)))).getD
              (rmOffset t.shape p) default = _
      rw [hgd, hsc]
      show f (tget sc (projIndex [] [rmOffset t.shape p]))
          (tget (reshape t [numElements t.shape])
            (projIndex [numElements t.shape] [rmOffset t.shape p]))
        = f (tget sc []) (tget t p)
      rw [tget_flat_proj t (numElements t.shape) (rmOffset t.shape p) hofflt]
      rfl
  · have hb : broadcastShape (reshape t [numElements t.shape]).shape sc.shape
        = some [numElements t.shape] := by
      rw [hsc]
      exact broadcastShape_nil_right _
    have hev := bcastEval2_eq f (reshape t [numElements t.shape]) sc _ hb
    refine ⟨reshape ⟨[numElements t.shape], (indexList [numElements t.shape]).map
      (fun q => f (tget (reshape t [numElements t.shape])
          (projIndex (reshape t [numElements t.shape]).shape q))
        (tget sc (projIndex sc.shape q)))⟩ t.shape,
      ?_, rfl, ?_⟩
    · show (bcastEval2 f (reshape t [numElements t.shape]) sc).map
          (fun computed => reshape computed t.shape) = _
      rw [hev]
      rfl
    · intro p hp
      have hofflt : rmOffset t.shape p < numElements t.shape := rmOffset_lt hp
      have hgd := getD_map_indexList
        (fun q => f (tget (reshape t [numElements t.shape])
            (projIndex (reshape t [numElements t.shape]).shape q))
          (tget sc (projIndex sc.shape q)))
        default (mem_indexList_singleton hofflt)
      rw [rmOffset_singleton] at hgd
      show ((indexList [numElements t.shape]).map
        (fun q => f (tget (reshape t [numElements t.shape])
            (projIndex (reshape t [numElements t.shape]).shape q))
          (tget sc (projIndex sc.shape q)))).getD
              (rmOffset t.shape p) default = _
      rw [hgd, hsc]
      show f (tget (reshape t [numElements t.shape])
            (projIndex [numElements t.shape] [rmOffset t.shape p]))
          (tget sc (projIndex [] [rmOffset t.shape p]))
        = f (tget t p) (tget sc [])
      rw [tget_flat_proj t (numElements t.shape) (rmOffset t.shape p) hofflt]
      rfl

/-- Witness for C9 at scalar value 100 and operand shape [2,2]. -/
theorem scalar_broadcast_result_correct_witness :
    (⟨[],[100]⟩ : Tensor Nat).shape = []
    ∧ (⟨[2,2],[1,2,3,4]⟩ : Tensor Nat).wf
    ∧ (∃ res, scalarBroadcastRewriteEval (fun x y => x - y) (⟨[],[100]⟩ : Tensor Nat)
        ⟨[2,2],[1,2,3,4]⟩ true = some res
      ∧ res.shape = (⟨[2,2],[1,2,3,4]⟩ : Tensor Nat).shape
      ∧ ∀ p ∈ indexList (⟨[2,2],[1,2,3,4]⟩ : Tensor Nat).shape,
          tget res p = (tget (⟨[],[100]⟩ : Tensor Nat) [])
            - (tget (⟨[2,2],[1,2,3,4]⟩ : Tensor Nat) p)) :=
  ⟨rfl, by decide,
    (scalar_broadcast_result_correct (fun x y => x - y) ⟨[],[100]⟩ ⟨[2,2],[1,2,3,4]⟩
      rfl (by decide)).1⟩

/-- C5: when all operand shapes are run-time-equal and the scalar-like fast
path does not fire, the n-ary dispatch takes fast path B: the operation is
applied directly to the original operands (no reshape occurs in that branch of
the emitted graph), and the result is the direct fixed-rank application with
the operands' common shape. -/
theorem nary_equal_shapes_direct {α : Type} [Inhabited α] (f : List α → α)
    (minShapes : List Shape → List Shape) (ops : List (Tensor α))
    (hcnt : countScalarLike (ops.map Tensor.shape) < ops.length - 1)
    (heq : allShapesEqual (ops.map Tensor.shape) = true) :
    naryDispatchEval f minShapes ops = .ok (directEvalN f ops)
    ∧ (∀ A : Type, hasReshape (naryEqShapesBranch (A := A)) = false)
    ∧ (directEvalN f ops).shape = (ops.headD ⟨[], []⟩).shape := by
  refine ⟨?_, fun A => rfl, rfl⟩
  rw [naryDispatchEval, if_neg (by omega), if_pos heq]

/-- Witness for C5 at two operands of shape [2,3]. -/
theorem nary_equal_shapes_direct_witness :
    countScalarLike ([(⟨[2,3],[0,1,2,3,4,5]⟩ : Tensor Nat), ⟨[2,3],[5,4,3,2,1,0]⟩].map
        Tensor.shape)
      < [(⟨[2,3],[0,1,2,3,4,5]⟩ : Tensor Nat), ⟨[2,3],[5,4,3,2,1,0]⟩].length - 1
    ∧ allShapesEqual ([(⟨[2,3],[0,1,2,3,4,5]⟩ : Tensor Nat), ⟨[2,3],[5,4,3,2,1,0]⟩].map
        Tensor.shape) = true
    ∧ (naryDispatchEval (fun l => l.foldl (fun x y => x + y) 0) id
          [(⟨[2,3],[0,1,2,3,4,5]⟩ : Tensor Nat), ⟨[2,3],[5,4,3,2,1,0]⟩]
        = .ok (directEvalN (fun l => l.foldl (fun x y => x + y) 0)
            [(⟨[2,3],[0,1,2,3,4,5]⟩ : Tensor Nat), ⟨[2,3],[5,4,3,2,1,0]⟩])
      ∧ (∀ A : Type, hasReshape (naryEqShapesBranch (A := A)) = false)
      ∧ (directEvalN (fun l => l.foldl (fun x y => x + y) 0)
          [(⟨[2,3],[0,1,2,3,4,5]⟩ : Tensor Nat), ⟨[2,3],[5,4,3,2,1,0]⟩]).shape
        = ([(⟨[2,3],[0,1,2,3,4,5]⟩ : Tensor Nat), ⟨[2,3],[5,4,3,2,1,0]⟩].headD
            ⟨[], []⟩).shape) :=
  ⟨by decide, by decide,
    nary_equal_shapes_direct (fun l => l.foldl (fun x y => x + y) 0) id
      [⟨[2,3],[0,1,2,3,4,5]⟩, ⟨[2,3],[5,4,3,2,1,0]⟩] (by decide) (by decide)⟩

/-- C6: when at run time at least all but one operand shapes have exactly one
element, the n-ary dispatch takes fast path A: the scalar-like counter (which
counts exactly the operands with one-element shapes) reaches the threshold,
every operand is flattened to one dimension, the operation is applied at rank
1, and the result is reshaped to the broadcast of all operand shapes. -/
theorem nary_scalar_like_fast_path {α : Type} [Inhabited α] (f : List α → α)
    (minShapes : List Shape → List Shape) (ops : List (Tensor α))
    (flatRes : Tensor α) (bs : Shape)
    (hcnt : countScalarLike (ops.map Tensor.shape) ≥ ops.length - 1)
    (hflat : bcastEvalN f (ops.map flatten1D) = some flatRes)
    (hbs : broadcastShapes (ops.map Tensor.shape) = some bs) :
    naryDispatchEval f minShapes ops = .ok (reshape flatRes bs)
    ∧ (reshape flatRes bs).shape = bs
    ∧ countScalarLike (ops.map Tensor.shape)
        = ((ops.map Tensor.shape).filter (fun s => IsSingleElementShape s)).length := by
  refine ⟨?_, rfl, countScalarLike_eq_filter _⟩
  rw [naryDispatchEval, if_pos hcnt]
  simp only [hflat, hbs]

/-- Witness for C6 at the binary case with operand shapes [3] and [1]. -/
theorem nary_scalar_like_fast_path_witness :
    countScalarLike ([(⟨[3],[1,2,3]⟩ : Tensor Nat), ⟨[1],[10]⟩].map Tensor.shape)
      ≥ [(⟨[3],[1,2,3]⟩ : Tensor Nat), ⟨[1],[10]⟩].length - 1
    ∧ bcastEvalN (fun l => l.foldl (fun x y => x + y) 0)
        ([(⟨[3],[1,2,3]⟩ : Tensor Nat), ⟨[1],[10]⟩].map flatten1D)
      = some ⟨[3],[11,12,13]⟩
    ∧ broadcastShapes ([(⟨[3],[1,2,3]⟩ : Tensor Nat), ⟨[1],[10]⟩].map Tensor.shape)
      = some [3]
    ∧ naryDispatchEval (fun l => l.foldl (fun x y => x + y) 0) id
        [(⟨[3],[1,2,3]⟩ : Tensor Nat), ⟨[1],[10]⟩]
      = .ok (reshape (⟨[3],[11,12,13]⟩ : Tensor Nat) [3])
    ∧ (reshape (⟨[3],[11,12,13]⟩ : Tensor Nat) [3]).shape = [3] :=
  ⟨by decide, by decide, by decide,
    (nary_scalar_like_fast_path (fun l => l.foldl (fun x y => x + y) 0) id
      [⟨[3],[1,2,3]⟩, ⟨[1],[10]⟩] ⟨[3],[11,12,13]⟩ [3]
      (by decide) (by decide) (by decide)).1,
    rfl⟩

/-- C2: whenever the maximum rank of the minimized operand shapes exceeds the
bound (so for the bound plus one, the bound plus two, and every larger rank),
the emitted rank ladder reaches the final else branch and the assertion fails
with the message naming the exceeded bound (5 or 8); the generated program
yields an error and never an ordinary numeric result. -/
theorem nary_ladder_overflow_asserts {α : Type} [Inhabited α] (f : List α → α)
    (minShapes : List Shape → List Shape) (ops : List (Tensor α)) (bs : Shape)
    (hbs : broadcastShapes (ops.map Tensor.shape) = some bs)
    (hrank : kMaxRankSpecialization ops.length
        < maxRank (minShapes (ops.map Tensor.shape))) :
    handleBroadcastAndOp f minShapes ops
      = .error (assertMessage (kMaxRankSpecialization ops.length))
    ∧ (kMaxRankSpecialization ops.length = 5 ∨ kMaxRankSpecialization ops.length = 8)
    ∧ (∀ t, handleBroadcastAndOp f minShapes ops ≠ .ok t) := by
  have hmain : handleBroadcastAndOp f minShapes ops
      = .error (assertMessage (kMaxRankSpecialization ops.length)) := by
    rw [handleBroadcastAndOp, hbs]
    have hladder := ladderEval_gt (kMaxRankSpecialization ops.length)
      (maxRank (minShapes (ops.map Tensor.shape)))
      (fun r => rankSpecBody f
        (List.zipWith reshape ops (minShapes (ops.map Tensor.shape)))
        (minShapes (ops.map Tensor.shape)) r)
      (by omega)
    simp only [hladder]
  refine ⟨hmain, ?_, ?_⟩
  · rw [kMaxRankSpecialization]
    split
    · right; rfl
    · left; rfl
  · intro t hcontra
    rw [hmain] at hcontra
    exact Except.noConfusion hcontra

/-- Witness for C2 at binary operations with minimized maximum ranks 6 (the
bound plus one) and 7 (the bound plus two). -/
theorem nary_ladder_overflow_asserts_witness :
    broadcastShapes ([(⟨[2,2,2,2,2,2],[]⟩ : Tensor Nat), ⟨[2],[]⟩].map Tensor.shape)
      = some [2,2,2,2,2,2]
    ∧ kMaxRankSpecialization [(⟨[2,2,2,2,2,2],[]⟩ : Tensor Nat), ⟨[2],[]⟩].length
      < maxRank (id ([(⟨[2,2,2,2,2,2],[]⟩ : Tensor Nat), ⟨[2],[]⟩].map Tensor.shape))
    ∧ handleBroadcastAndOp (fun l => l.foldl (fun x y => x + y) 0) id
        [(⟨[2,2,2,2,2,2],[]⟩ : Tensor Nat), ⟨[2],[]⟩]
      = .error (assertMessage
          (kMaxRankSpecialization [(⟨[2,2,2,2,2,2],[]⟩ : Tensor Nat), ⟨[2],[]⟩].length))
    ∧ broadcastShapes ([(⟨[2,2,2,2,2,2,2],[]⟩ : Tensor Nat), ⟨[2],[]⟩].map Tensor.shape)
      = some [2,2,2,2,2,2,2]
    ∧ kMaxRankSpecialization [(⟨[2,2,2,2,2,2,2],[]⟩ : Tensor Nat), ⟨[2],[]⟩].length
      < maxRank (id ([(⟨[2,2,2,2,2,2,2],[]⟩ : Tensor Nat), ⟨[2],[]⟩].map Tensor.shape))
    ∧ handleBroadcastAndOp (fun l => l.foldl (fun x y => x + y) 0) id
        [(⟨[2,2,2,2,2,2,2],[]⟩ : Tensor Nat), ⟨[2],[]⟩]
      = .error (assertMessage
          (kMaxRankSpecialization [(⟨[2,2,2,2,2,2,2],[]⟩ : Tensor Nat), ⟨[2],[]⟩].length))
    ∧ assertMessage 5
      = "Input for dynamic binary op lowering was of a rank greater than 5" :=
  ⟨by decide, by decide,
    (nary_ladder_overflow_asserts (fun l => l.foldl (fun x y => x + y) 0) id
      [⟨[2,2,2,2,2,2],[]⟩, ⟨[2],[]⟩] [2,2,2,2,2,2] (by decide) (by decide)).1,
    by decide, by decide,
    (nary_ladder_overflow_asserts (fun l => l.foldl (fun x y => x + y) 0) id
      [⟨[2,2,2,2,2,2,2],[]⟩, ⟨[2],[]⟩] [2,2,2,2,2,2,2] (by decide) (by decide)).1,
    rfl⟩

/-- C3: the rank ladder emitted by the n-ary dispatch pattern has one branch
per candidate rank 1 up to the bound (its guard constants are exactly 1, ...,
bound, and it creates one rank-specialized core operation per branch), and the
bound is 8 for operations with more than two operands and 5 for binary
operations. -/
theorem nary_ladder_branch_structure {A : Type} (attrs : A) (numOps : Nat) :
    ladderGuardIndices (emittedLadderChain numOps attrs (kMaxRankSpecialization numOps))
      = List.range' 1 (kMaxRankSpecialization numOps)
    ∧ (coreOpAttrs (emittedLadderChain numOps attrs (kMaxRankSpecialization numOps))).length
      = kMaxRankSpecialization numOps
    ∧ kMaxRankSpecialization 2 = 5
    ∧ (∀ j : Nat, kMaxRankSpecialization (j + 3) = 8) := by
  have hm : 2 ≤ kMaxRankSpecialization numOps := by
    rw [kMaxRankSpecialization]
    split <;> omega
  refine ⟨ladderGuardIndices_emittedLadderChain numOps attrs _ hm, ?_, rfl, ?_⟩
  · rw [coreOpAttrs_emittedLadderChain numOps attrs _ hm, List.length_replicate]
  · intro j
    rw [kMaxRankSpecialization, if_pos (by omega)]

/-- Witness for C3 at a binary operation and at a ternary operation. -/
theorem nary_ladder_branch_structure_witness :
    ladderGuardIndices (emittedLadderChain 2 () (kMaxRankSpecialization 2))
      = List.range' 1 (kMaxRankSpecialization 2)
    ∧ ladderGuardIndices (emittedLadderChain 3 () (kMaxRankSpecialization 3))
      = List.range' 1 (kMaxRankSpecialization 3)
    ∧ kMaxRankSpecialization 2 = 5
    ∧ kMaxRankSpecialization 3 = 8 :=
  ⟨(nary_ladder_branch_structure () 2).1, (nary_ladder_branch_structure () 3).1,
    (nary_ladder_branch_structure () 2).2.2.1,
    (nary_ladder_branch_structure () 3).2.2.2 0⟩

theorem coreOpAttrs_fastPathANodes {A : Type} (numOps : Nat) (attrs : A) :
    coreOpAttrs (fastPathANodes numOps attrs) = [attrs] := by
  rw [fastPathANodes, coreOpAttrs_seqAll, List.flatMap_append,
    flatMap_flatten_replicate_nil numOps
      [ENode.numElementsNode, ENode.fromElementsNode, ENode.dynReshape] coreOpAttrs rfl]
  rfl

theorem coreOpAttrs_emittedHandleBroadcast {A : Type} (numOps : Nat) (attrs : A) :
    coreOpAttrs (emittedHandleBroadcast numOps attrs)
      = List.replicate (kMaxRankSpecialization numOps) attrs := by
  have hm : 2 ≤ kMaxRankSpecialization numOps := by
    rw [kMaxRankSpecialization]
    split <;> omega
  have hpre : (List.replicate numOps ENode.shapeOfNode
      ++ [ENode.bcastNode, ENode.minBcastShapes]
      ++ List.replicate numOps ENode.dynReshape
      ++ [ENode.rankNode]
      ++ (List.replicate (numOps - 1)
            [ENode.rankNode, ENode.cmpi, ENode.selecti]).flatten).flatMap
        (coreOpAttrs (A := A)) = [] := by
    rw [List.flatMap_append, List.flatMap_append, List.flatMap_append,
      List.flatMap_append,
      flatMap_replicate_nil numOps ENode.shapeOfNode coreOpAttrs rfl,
      flatMap_replicate_nil numOps ENode.dynReshape coreOpAttrs rfl,
      flatMap_flatten_replicate_nil (numOps - 1)
        [ENode.rankNode, ENode.cmpi, ENode.selecti] coreOpAttrs rfl]
    rfl
  have hlast : ([emittedLadderChain numOps attrs (kMaxRankSpecialization numOps),
      ENode.dynReshape, ENode.yieldNode].flatMap coreOpAttrs)
      = coreOpAttrs (emittedLadderChain numOps attrs (kMaxRankSpecialization numOps)) := by
    show coreOpAttrs (emittedLadderChain numOps attrs (kMaxRankSpecialization numOps))
      ++ ([] ++ ([] ++ [])) = _
    simp
  rw [emittedHandleBroadcast, coreOpAttrs_seqAll, List.flatMap_append, hpre, hlast,
    coreOpAttrs_emittedLadderChain numOps attrs _ hm, List.nil_append]

theorem coreOpAttrs_narySecondElseNodes {A : Type} (numOps : Nat) (attrs : A) :
    coreOpAttrs (narySecondElseNodes numOps attrs)
      = List.replicate (kMaxRankSpecialization numOps) attrs := by
  rw [narySecondElseNodes, coreOpAttrs_seqAll, List.flatMap_append, List.flatMap_append,
    flatMap_flatten_replicate_nil (numOps - 2)
      [ENode.shapeEqNode, ENode.andi] coreOpAttrs rfl,
    List.flatMap_cons, List.flatMap_cons, List.flatMap_nil]
  show [] ++ [] ++
    ((coreOpAttrs naryEqShapesBranch ++ coreOpAttrs (emittedHandleBroadcast numOps attrs))
      ++ ([] ++ [])) = _
  rw [coreOpAttrs_emittedHandleBroadcast numOps attrs]
  show [] ++ [] ++ (([] ++ List.replicate (kMaxRankSpecialization numOps) attrs)
    ++ ([] ++ [])) = _
  simp

/-- C10: every rewrite pattern passes the replaced operation's attribute
dictionary unchanged to every core operation it creates: the flattened
elementwise operation, the rank-1 scalar-broadcast operation, the fast-path
rank-1 operation and each of the rank-specialized operations in the ladder all
carry exactly the original attribute dictionary (so every attribute name maps
to its original value). -/
theorem rewrite_patterns_preserve_attributes {A : Type} (attrs : A) (numOps : Nat) :
    coreOpAttrs (emittedElementwise numOps attrs) = [attrs]
    ∧ coreOpAttrs (emittedScalarBroadcast attrs) = [attrs]
    ∧ coreOpAttrs (emittedNaryDispatch numOps attrs)
      = List.replicate (kMaxRankSpecialization numOps + 1) attrs := by
  refine ⟨?_, rfl, ?_⟩
  · rw [emittedElementwise, coreOpAttrs_seqAll, List.flatMap_append,
      List.flatMap_append, List.flatMap_append, List.flatMap_append,
      flatMap_replicate_nil numOps ENode.shapeOfNode coreOpAttrs rfl,
      flatMap_replicate_nil numOps ENode.dynReshape coreOpAttrs rfl]
    have hif : (if numOps = 1 then ([] : List (ENode A))
        else [ENode.anyShapeNode]).flatMap coreOpAttrs = [] := by
      split <;> rfl
    rw [hif]
    rfl
  · rw [emittedNaryDispatch, coreOpAttrs_seqAll, List.flatMap_append,
      List.flatMap_append, List.flatMap_append,
      flatMap_replicate_nil numOps ENode.shapeOfNode coreOpAttrs rfl,
      flatMap_flatten_replicate_nil numOps
        [ENode.numElementsNode, ENode.constIndex 1, ENode.cmpi, ENode.addi,
         ENode.selecti] coreOpAttrs rfl,
      List.flatMap_cons, List.flatMap_cons, List.flatMap_cons, List.flatMap_nil]
    show [] ++ [] ++ [] ++ ([] ++ ([] ++
      ((coreOpAttrs (fastPathANodes numOps attrs)
        ++ coreOpAttrs (narySecondElseNodes numOps attrs)) ++ []))) = _
    rw [coreOpAttrs_fastPathANodes numOps attrs, coreOpAttrs_narySecondElseNodes numOps attrs]
    simp [List.replicate_succ]

/-- Witness for C10 at a binary operation with a concrete attribute list. -/
theorem rewrite_patterns_preserve_attributes_witness :
    coreOpAttrs (emittedElementwise 2 [("broadcast_dimensions", "dense")]) =
      [[("broadcast_dimensions", "dense")]]
    ∧ coreOpAttrs (emittedScalarBroadcast [("broadcast_dimensions", "dense")]) =
      [[("broadcast_dimensions", "dense")]]
    ∧ coreOpAttrs (emittedNaryDispatch 2 [("broadcast_dimensions", "dense")])
      = List.replicate (kMaxRankSpecialization 2 + 1) [("broadcast_dimensions", "dense")] :=
  rewrite_patterns_preserve_attributes [("broadcast_dimensions", "dense")] 2

/-- C4: for the emitted rank ladder, the branch guards test the run-time
maximum rank for equality with the candidate rank, the candidate ranks are
strictly ascending, for every run-time rank between 1 and the bound exactly
the branch of that rank is taken (all other ranks take no branch, so branches
are mutually exclusive), and the taken branch's result, reshaped to the true
broadcast shape of the operand shapes, is the direct broadcast evaluation of
the operation on the reduced-shape operands. -/
theorem nary_ladder_dispatch_correct {α : Type} [Inhabited α] (f : List α → α)
    (minShapes : List Shape → List Shape) (ops : List (Tensor α)) (bs : Shape)
    (direct : Tensor α) (hn : 2 ≤ ops.length)
    (hlen : (minShapes (ops.map Tensor.shape)).length = ops.length)
    (hbs : broadcastShapes (ops.map Tensor.shape) = some bs)
    (hr1 : 1 ≤ maxRank (minShapes (ops.map Tensor.shape)))
    (hrM : maxRank (minShapes (ops.map Tensor.shape)) ≤ kMaxRankSpecialization ops.length)
    (hdirect : bcastEvalN f (List.zipWith reshape ops (minShapes (ops.map Tensor.shape)))
        = some direct) :
    (∀ q, ladderTaken (kMaxRankSpecialization ops.length) q
        = if 1 ≤ q ∧ q ≤ kMaxRankSpecialization ops.length then some q else none)
    ∧ (∀ (A : Type) (attrs : A),
        (ladderGuardIndices (emittedLadderChain ops.length attrs
          (kMaxRankSpecialization ops.length))).Pairwise (fun x y => x < y))
    ∧ handleBroadcastAndOp f minShapes ops = .ok (reshape direct bs) := by
  have hm5 : 5 ≤ kMaxRankSpecialization ops.length := by
    rw [kMaxRankSpecialization]
    split <;> omega
  refine ⟨ladderTaken_eq _ (by omega), ?_, ?_⟩
  · intro A attrs
    rw [ladderGuardIndices_emittedLadderChain ops.length attrs _ (by omega)]
    exact List.pairwise_lt_range' 1 (kMaxRankSpecialization ops.length)
  · have hshapes : (List.zipWith reshape ops (minShapes (ops.map Tensor.shape))).map
        Tensor.shape = minShapes (ops.map Tensor.shape) :=
      shapes_zipWith_reshape _ _ hlen.symm
    have hdir2 := hdirect
    unfold bcastEvalN at hdir2
    rw [hshapes] at hdir2
    cases hbs2 : broadcastShapes (minShapes (ops.map Tensor.shape)) with
    | none =>
        rw [hbs2] at hdir2
        simp at hdir2
    | some c =>
        have hne : ops ≠ [] := by
          intro h
          rw [h] at hn
          simp at hn
        have hbody := rankSpecBody_at_maxRank f ops (minShapes (ops.map Tensor.shape)) c
          hlen.symm hne hbs2
        have hladder : ladderEval (kMaxRankSpecialization ops.length)
            (maxRank (minShapes (ops.map Tensor.shape)))
            (fun r => rankSpecBody f
              (List.zipWith reshape ops (minShapes (ops.map Tensor.shape)))
              (minShapes (ops.map Tensor.shape)) r)
            = .ok (some direct) := by
          rw [ladderEval_ok _ _ _ hr1 hrM]
          show Except.ok (rankSpecBody f
            (List.zipWith reshape ops (minShapes (ops.map Tensor.shape)))
            (minShapes (ops.map Tensor.shape))
            (maxRank (minShapes (ops.map Tensor.shape)))) = _
          rw [hbody, hdirect]
        rw [handleBroadcastAndOp, hbs]
        simp only [hladder]

/-- Witness for C4 at a binary operation on operands of reduced shapes [2]
and [3,1], whose maximum reduced rank 2 selects ladder branch 2. -/
theorem nary_ladder_dispatch_correct_witness :
    2 ≤ [(⟨[2],[10,20]⟩ : Tensor Nat), ⟨[3,1],[1,2,3]⟩].length
    ∧ (id ([(⟨[2],[10,20]⟩ : Tensor Nat), ⟨[3,1],[1,2,3]⟩].map Tensor.shape)).length
      = [(⟨[2],[10,20]⟩ : Tensor Nat), ⟨[3,1],[1,2,3]⟩].length
    ∧ broadcastShapes ([(⟨[2],[10,20]⟩ : Tensor Nat), ⟨[3,1],[1,2,3]⟩].map Tensor.shape)
      = some [3,2]
    ∧ 1 ≤ maxRank (id ([(⟨[2],[10,20]⟩ : Tensor Nat), ⟨[3,1],[1,2,3]⟩].map Tensor.shape))
    ∧ maxRank (id ([(⟨[2],[10,20]⟩ : Tensor Nat), ⟨[3,1],[1,2,3]⟩].map Tensor.shape))
      ≤ kMaxRankSpecialization [(⟨[2],[10,20]⟩ : Tensor Nat), ⟨[3,1],[1,2,3]⟩].length
    ∧ bcastEvalN (fun l => l.foldl (fun x y => x + y) 0)
        (List.zipWith reshape [(⟨[2],[10,20]⟩ : Tensor Nat), ⟨[3,1],[1,2,3]⟩]
          (id ([(⟨[2],[10,20]⟩ : Tensor Nat), ⟨[3,1],[1,2,3]⟩].map Tensor.shape)))
      = some ⟨[3,2],[11,21,12,22,13,23]⟩
    ∧ handleBroadcastAndOp (fun l => l.foldl (fun x y => x + y) 0) id
        [(⟨[2],[10,20]⟩ : Tensor Nat), ⟨[3,1],[1,2,3]⟩]
      = .ok (reshape (⟨[3,2],[11,21,12,22,13,23]⟩ : Tensor Nat) [3,2]) :=
  ⟨by decide, by decide, by decide, by decide, by decide, by decide,
    (nary_ladder_dispatch_correct (fun l => l.foldl (fun x y => x + y) 0) id
      [⟨[2],[10,20]⟩, ⟨[3,1],[1,2,3]⟩] [3,2] ⟨[3,2],[11,21,12,22,13,23]⟩
      (by decide) (by decide) (by decide) (by decide) (by decide) (by decide)).2.2⟩
